import Mathlib

/-!
Verification of the MLIR builder core (`src/circt/src/mlir/builder.rs`) and
the opaque-handle marshaling boundary (`src/circt-sys/src/lib.rs`).

Opaque engine handles are modelled as natural-number identifiers; a nullable
raw handle is an `Option Nat` (with `none` playing the role of the null
pointer).  The primitive IR engine is an external collaborator of the
repository; its splice/equality primitives are modelled from the spec's §6
contract.  Mutable state is threaded explicitly: the engine's storage is a
`World`, and every Rust method on `Builder` becomes a function from (and,
when it mutates IR, to) a `World`.  A Rust `expect`-panic is modelled by an
`Option`-valued result (`none` = the call aborted without mutating anything).
-/

/-- `Location::unknown(cx)`: the default "unknown" location of a context. -/
def Location.unknown (_cx : Nat) : Nat := 0

/-
Handles and locations are plain `Nat` identifiers throughout: operation ids,
block ids, region ids and opaque location values.  A nullable raw handle is
an `Option Nat`.
-/

/-- Raw operation handle: `MlirOperation { ptr }` where `ptr` may be null.
`none` models a null pointer (`ptr.is_null()` in Rust). -/
structure MlirOperation where
  ptr : Option Nat
deriving DecidableEq, Repr

/-- Raw type handle: `MlirType { ptr }`, `none` models a null pointer. -/
structure MlirType where
  ptr : Option Nat
deriving DecidableEq, Repr

/-- Raw block handle: `MlirBlock { ptr }`, `none` models a null pointer. -/
structure MlirBlock where
  ptr : Option Nat
deriving DecidableEq, Repr

/-- `impl PartialEq for MlirType` (circt-sys/src/lib.rs lines 35-43): match on
the pair of null-nesses; both null ⇒ true, both non-null ⇒ delegate to the
engine primitive `mlirTypeEqual` (passed in as `typeEqual`), mixed ⇒ false. -/
def MlirType.eq (typeEqual : Nat → Nat → Bool) (a b : MlirType) : Bool :=
  match a.ptr, b.ptr with
  | none, none => true
  | some x, some y => typeEqual x y
  | _, _ => false

/-- `impl PartialEq for MlirBlock` (circt-sys/src/lib.rs lines 47-55): same
shape, delegating to the engine primitive `mlirBlockEqual` (`blockEqual`). -/
def MlirBlock.eq (blockEqual : Nat → Nat → Bool) (a b : MlirBlock) : Bool :=
  match a.ptr, b.ptr with
  | none, none => true
  | some x, some y => blockEqual x y
  | _, _ => false

/-- Insert `x` immediately after the first occurrence of `r` in a list
(identity when `r` does not occur). -/
def insertAfterElem (r x : Nat) : List Nat → List Nat
  | [] => []
  | y :: ys => if y = r then y :: x :: ys else y :: insertAfterElem r x ys

/-- Insert `x` immediately before the first occurrence of `r` in a list
(identity when `r` does not occur). -/
def insertBeforeElem (r x : Nat) : List Nat → List Nat
  | [] => []
  | y :: ys => if y = r then x :: y :: ys else y :: insertBeforeElem r x ys

/-- Modelled from the spec: §6 engine primitive `insertOperationAfter`
(`mlirBlockInsertOwnedOperationAfter`), acting on a block's operation list:
splices `x` immediately after the reference operation; the null sentinel
reference means "before the block's first operation". -/
def mlirBlockInsertOwnedOperationAfter (ops : List Nat) (ref : MlirOperation)
    (x : Nat) : List Nat :=
  match ref.ptr with
  | none => x :: ops
  | some r => insertAfterElem r x ops

/-- Modelled from the spec: §6 engine primitive `insertOperationBefore`
(`mlirBlockInsertOwnedOperationBefore`): splices `x` immediately before the
reference operation; the null sentinel means "after the block's last
operation". -/
def mlirBlockInsertOwnedOperationBefore (ops : List Nat) (ref : MlirOperation)
    (x : Nat) : List Nat :=
  match ref.ptr with
  | none => ops ++ [x]
  | some r => insertBeforeElem r x ops

/-- The engine's IR storage, modelled from the spec's §6 contract: the
contents of every block, region membership and ordering of blocks, the
location and name recorded on each materialized operation, the parent block
of each inserted operation, and fresh-handle allocators. -/
structure World where
  blocks : Nat → List Nat
  blockRegion : Nat → Nat
  regions : Nat → List Nat
  opLoc : Nat → Nat
  opName : Nat → String
  opParent : Nat → Nat
  nextOp : Nat
  nextBlock : Nat

/-- `enum InsertPoint` (builder.rs lines 118-123): the four cursor states;
`After`/`Before` carry the raw reference operation handle. -/
inductive InsertPoint where
  | BlockStart : InsertPoint
  | BlockEnd : InsertPoint
  | After : MlirOperation → InsertPoint
  | Before : MlirOperation → InsertPoint
deriving DecidableEq, Repr

/-- `struct Builder` (builder.rs lines 8-20): context reference, current
location, optionally tracked insertion block, cursor, and the
block-sequencing pointer `insert_block_after`. -/
structure Builder where
  cx : Nat
  loc : Nat
  insert_block : Option Nat
  insert_point : InsertPoint
  insert_block_after : Option Nat
deriving DecidableEq, Repr

/-- `Builder::new` (builder.rs lines 24-32). -/
def Builder.new (cx : Nat) : Builder :=
  { cx := cx
    loc := Location.unknown cx
    insert_block := none
    insert_point := InsertPoint.BlockStart
    insert_block_after := none }

/-- `Builder::set_loc` (builder.rs lines 35-37). -/
def Builder.set_loc (b : Builder) (loc : Nat) : Builder :=
  { b with loc := loc }

/-- `Builder::set_insertion_point_to_start` (builder.rs lines 45-49). -/
def Builder.set_insertion_point_to_start (b : Builder) (block : Nat) :
    Builder :=
  { b with
    insert_block := some block
    insert_point := InsertPoint.BlockStart
    insert_block_after := some block }

/-- `Builder::set_insertion_point_to_end` (builder.rs lines 52-56). -/
def Builder.set_insertion_point_to_end (b : Builder) (block : Nat) :
    Builder :=
  { b with
    insert_block := some block
    insert_point := InsertPoint.BlockEnd
    insert_block_after := some block }

/-- `Builder::set_insertion_point_before` (builder.rs lines 59-63):
`op.parent_block()` is the engine's parent-block query, read from the world. -/
def Builder.set_insertion_point_before (b : Builder) (w : World) (op : Nat) :
    Builder :=
  { b with
    insert_block := some (w.opParent op)
    insert_point := InsertPoint.Before ⟨some op⟩
    insert_block_after := some (w.opParent op) }

/-- `Builder::set_insertion_point_after` (builder.rs lines 66-70). -/
def Builder.set_insertion_point_after (b : Builder) (w : World) (op : Nat) :
    Builder :=
  { b with
    insert_block := some (w.opParent op)
    insert_point := InsertPoint.After ⟨some op⟩
    insert_block_after := some (w.opParent op) }

/-- `Builder::insert` (builder.rs lines 73-90).  `none` models the
`expect("insertion block not set")` abort, which fires before any engine
call.  On success: dispatch on the cursor to exactly one engine splice with
the null sentinel for `BlockStart`/`BlockEnd`, then unconditionally set the
cursor to `After(op)`. -/
def Builder.insert (b : Builder) (w : World) (op : Nat) :
    Option (Builder × World) :=
  match b.insert_block with
  | none => none
  | some block =>
    let null_op : MlirOperation := ⟨none⟩
    let ops := w.blocks block
    let ops' :=
      match b.insert_point with
      | InsertPoint.BlockStart => mlirBlockInsertOwnedOperationAfter ops null_op op
      | InsertPoint.BlockEnd => mlirBlockInsertOwnedOperationBefore ops null_op op
      | InsertPoint.After ref_op => mlirBlockInsertOwnedOperationAfter ops ref_op op
      | InsertPoint.Before ref_op => mlirBlockInsertOwnedOperationBefore ops ref_op op
    some ({ b with insert_point := InsertPoint.After ⟨some op⟩ },
      { w with
        blocks := fun x => if x = block then ops' else w.blocks x
        opParent := fun o => if o = op then block else w.opParent o })

/-- `Builder::add_block` (builder.rs lines 106-115).  `none` models either
`expect` abort; both fire before any engine call.  On success: create a fresh
empty block, splice it into the tracked block's parent region immediately
after the block-sequencing pointer, and advance that pointer to the new
block.  The tracked block and the cursor are untouched. -/
def Builder.add_block (b : Builder) (w : World) :
    Option (Builder × World × Nat) :=
  match b.insert_block with
  | none => none
  | some block =>
    match b.insert_block_after with
    | none => none
    | some after =>
      let new_block := w.nextBlock
      let region := w.blockRegion block
      some ({ b with insert_block_after := some new_block },
        { w with
          nextBlock := new_block + 1
          blocks := fun x => if x = new_block then [] else w.blocks x
          blockRegion := fun x => if x = new_block then region else w.blockRegion x
          regions := fun r =>
            if r = region then insertAfterElem after new_block (w.regions region)
            else w.regions r },
        new_block)

/-- `OperationState` (external Operation Assembly): the fields the builder
core reads or writes — the fixed operation name and the location it was
seeded with. -/
structure OperationState where
  name : String
  loc : Nat
deriving DecidableEq, Repr

/-- `OperationState::new(name, loc)`. -/
def OperationState.new (name : String) (loc : Nat) : OperationState :=
  { name := name, loc := loc }

/-- Modelled from the spec: §6 engine primitive `assembleOperation`
(`OperationState::build`): materializes a fresh operation carrying the
assembly's name and location. -/
def OperationState.build (s : OperationState) (w : World) : Nat × World :=
  (w.nextOp,
    { w with
      nextOp := w.nextOp + 1
      opLoc := fun o => if o = w.nextOp then s.loc else w.opLoc o
      opName := fun o => if o = w.nextOp then s.name else w.opName o })

/-- `Builder::build_with` (builder.rs lines 94-103): seed an assembly with
the fixed name and the builder's *current* location, run the client closure
(which may mutate the builder, the world and the assembly), materialize the
operation, insert it, and return it. -/
def Builder.build_with (name : String) (b : Builder) (w : World)
    (f : Builder → World → OperationState → Builder × World × OperationState) :
    Option (Builder × World × Nat) :=
  let state := OperationState.new name b.loc
  let r := f b w state
  let b1 := r.1
  let w1 := r.2.1
  let state1 := r.2.2
  let built := state1.build w1
  let op := built.1
  let w2 := built.2
  match Builder.insert b1 w2 op with
  | none => none
  | some (b2, w3) => some (b2, w3, op)

/-- Iterate `Builder.insert` over a list of operations, left to right, with
no intervening cursor change; aborts (`none`) as soon as one call aborts. -/
def insertAll (b : Builder) (w : World) : List Nat → Option (Builder × World)
  | [] => some (b, w)
  | op :: ops =>
    match Builder.insert b w op with
    | none => none
    | some (b1, w1) => insertAll b1 w1 ops

/-- Iterate `Builder.add_block` `k` times, collecting the returned blocks in
call order. -/
def addBlocks (b : Builder) (w : World) :
    Nat → Option (Builder × World × List Nat)
  | 0 => some (b, w, [])
  | k + 1 =>
    match Builder.add_block b w with
    | none => none
    | some (b1, w1, nb) =>
      match addBlocks b1 w1 k with
      | none => none
      | some (b2, w2, nbs) => some (b2, w2, nb :: nbs)

/-- One public `Builder` API call, as issued by client code.  The closure of
`build_with` is itself a sequence of public calls (the reentrant use the
spec describes), which leaves the assembly untouched. -/
inductive BuilderCall where
  | setLoc : Nat → BuilderCall
  | setStart : Nat → BuilderCall
  | setEnd : Nat → BuilderCall
  | setBefore : Nat → BuilderCall
  | setAfter : Nat → BuilderCall
  | insertOp : Nat → BuilderCall
  | addBlock : BuilderCall
  | buildWith : String → List BuilderCall → BuilderCall

mutual

/-- Execute one public `Builder` call against a builder and the engine world;
`none` models an `expect` abort (which also aborts every enclosing call). -/
def execCall : Builder → World → BuilderCall → Option (Builder × World)
  | b, w, BuilderCall.setLoc l => some (b.set_loc l, w)
  | b, w, BuilderCall.setStart blk => some (b.set_insertion_point_to_start blk, w)
  | b, w, BuilderCall.setEnd blk => some (b.set_insertion_point_to_end blk, w)
  | b, w, BuilderCall.setBefore op => some (b.set_insertion_point_before w op, w)
  | b, w, BuilderCall.setAfter op => some (b.set_insertion_point_after w op, w)
  | b, w, BuilderCall.insertOp op => Builder.insert b w op
  | b, w, BuilderCall.addBlock =>
    match Builder.add_block b w with
    | none => none
    | some (b1, w1, _) => some (b1, w1)
  | b, w, BuilderCall.buildWith name inner =>
    match execCalls b w inner with
    | none => none
    | some (b1, w1) =>
      let built := OperationState.build (OperationState.new name b.loc) w1
      Builder.insert b1 built.2 built.1

/-- Execute a sequence of public `Builder` calls left to right. -/
def execCalls : Builder → World → List BuilderCall → Option (Builder × World)
  | b, w, [] => some (b, w)
  | b, w, c :: cs =>
    match execCall b w c with
    | none => none
    | some (b1, w1) => execCalls b1 w1 cs

end

/-!
## UTF-8 marshaling boundary

Text is modelled as its list of Unicode scalar values; a borrowed
`MlirStringRef` view is the list of bytes of the text's UTF-8 encoding.
`utf8Encode` models how Rust's `str::as_bytes` exposes the (by construction
valid) UTF-8 bytes of a string; `utf8Decode?` models Rust std's
`str::from_utf8` validation/decoding (strict UTF-8: continuation bytes in
`0x80..0xBF`, no overlong forms, no surrogates, nothing above `0x10FFFF`).
-/

/-- A Unicode scalar value: below `0x110000` and not a surrogate. -/
def ValidScalar (c : Nat) : Prop :=
  c < 0x110000 ∧ (c < 0xD800 ∨ 0xE000 ≤ c)

instance (c : Nat) : Decidable (ValidScalar c) := by
  unfold ValidScalar; infer_instance

/-- UTF-8 encoding of one scalar value (1 to 4 bytes). -/
def utf8EncodeChar (c : Nat) : List Nat :=
  if c < 0x80 then [c]
  else if c < 0x800 then [0xC0 + c / 64, 0x80 + c % 64]
  else if c < 0x10000 then
    [0xE0 + c / 4096, 0x80 + c / 64 % 64, 0x80 + c % 64]
  else
    [0xF0 + c / 262144, 0x80 + c / 4096 % 64, 0x80 + c / 64 % 64, 0x80 + c % 64]

/-- UTF-8 encoding of a text (concatenation of its scalars' encodings). -/
def utf8Encode (s : List Nat) : List Nat :=
  (s.map utf8EncodeChar).flatten

/-- Is `b` a UTF-8 continuation byte (`0x80..0xBF`)? -/
def isCont (b : Nat) : Bool :=
  decide (0x80 ≤ b) && decide (b < 0xC0)

/-- Strict UTF-8 decoding of the first scalar of a byte list, returning the
scalar and the remaining bytes; `none` on any malformed prefix (stray or
missing continuation byte, overlong form, surrogate, value above
`0x10FFFF`). -/
def utf8DecodeOne : List Nat → Option (Nat × List Nat)
  | [] => none
  | b0 :: rest =>
    if b0 < 0x80 then some (b0, rest)
    else if b0 < 0xC2 then none
    else if b0 < 0xE0 then
      match rest with
      | b1 :: rest1 =>
        if isCont b1 then some ((b0 - 0xC0) * 64 + (b1 - 0x80), rest1) else none
      | [] => none
    else if b0 < 0xF0 then
      match rest with
      | b1 :: b2 :: rest2 =>
        if isCont b1 && isCont b2 then
          let c := (b0 - 0xE0) * 4096 + (b1 - 0x80) * 64 + (b2 - 0x80)
          if c < 0x800 then none
          else if 0xD800 ≤ c ∧ c < 0xE000 then none
          else some (c, rest2)
        else none
      | _ => none
    else if b0 < 0xF5 then
      match rest with
      | b1 :: b2 :: b3 :: rest3 =>
        if isCont b1 && isCont b2 && isCont b3 then
          let c := (b0 - 0xF0) * 262144 + (b1 - 0x80) * 4096
            + (b2 - 0x80) * 64 + (b3 - 0x80)
          if c < 0x10000 then none
          else if 0x110000 ≤ c then none
          else some (c, rest3)
        else none
      | _ => none
    else none

/-- Fuel-indexed full decoding loop (the fuel only serves termination; one
unit is spent per decoded scalar, so the byte count is always enough). -/
def utf8DecodeAux : Nat → List Nat → Option (List Nat)
  | _, [] => some []
  | 0, _ :: _ => none
  | fuel + 1, b0 :: rest =>
    match utf8DecodeOne (b0 :: rest) with
    | none => none
    | some (c, rest') =>
      match utf8DecodeAux fuel rest' with
      | none => none
      | some cs => some (c :: cs)

/-- Model of Rust std's `str::from_utf8`: decode a whole byte list into a
text, `none` if the bytes are not valid UTF-8. -/
def utf8Decode? (bs : List Nat) : Option (List Nat) :=
  utf8DecodeAux bs.length bs

/-- Outcome of running a Rust function that may panic: either the returned
value, or an unrecoverable abort (`expect`/panic) carrying the panic
message.  A panic is not a `Result` — the caller cannot handle it. -/
inductive RustOutcome (α : Type) where
  | ok : α → RustOutcome α
  | panicked : String → RustOutcome α
deriving DecidableEq, Repr

/-- `mlirStringRefCreateFromStr` (circt-sys/src/lib.rs lines 9-15): expose a
borrowed (pointer, length) view of the string's UTF-8 bytes, no copy, no
validation (a Rust `str` is valid UTF-8 by construction). -/
def mlirStringRefCreateFromStr (s : List Nat) : List Nat :=
  utf8Encode s

/-- `mlirStringRefToStr` (circt-sys/src/lib.rs lines 17-23): decode the
borrowed byte range with `str::from_utf8` and pass the text to `f`; the
`.expect("utf8 string")` turns a decode failure into an unrecoverable
panic, modelled by `RustOutcome.panicked`. -/
def mlirStringRefToStr {R : Type} (s : List Nat) (f : List Nat → R) :
    RustOutcome R :=
  match utf8Decode? s with
  | some t => RustOutcome.ok (f t)
  | none => RustOutcome.panicked "utf8 string"

/-- The spec's validity invariant on a cursor relative to the tracked block's
contents: a `Before`/`After` reference operation must be a non-null handle of
an operation belonging to the tracked block; `BlockStart`/`BlockEnd` are
always valid. -/
def InsertPoint.validFor : InsertPoint → List Nat → Prop
  | InsertPoint.After r, l => ∃ x, r.ptr = some x ∧ x ∈ l
  | InsertPoint.Before r, l => ∃ x, r.ptr = some x ∧ x ∈ l
  | _, _ => True

/-- The implicit builder-state invariant: the tracked insertion block is set
iff the block-sequencing pointer is set. -/
def BuilderInv (b : Builder) : Prop :=
  b.insert_block.isSome = b.insert_block_after.isSome

/-- A fixed sample world used by the concrete witnesses: block `0` holds
operations `[1, 2]` inside region `0`, both operations' parent is block `0`,
and fresh handles start at `10`. -/
def sampleWorld : World :=
  { blocks := fun x => if x = 0 then [1, 2] else []
    blockRegion := fun _ => 0
    regions := fun r => if r = 0 then [0] else []
    opLoc := fun _ => 0
    opName := fun _ => ""
    opParent := fun _ => 0
    nextOp := 10
    nextBlock := 10 }

-- Sanity examples (claims are settled further below).
example :
    MlirType.eq (fun x y => x == y) ⟨some 3⟩ ⟨some 3⟩ = true := by decide

example :
    MlirType.eq (fun _ _ => true) ⟨none⟩ ⟨some 3⟩ = false := by decide

example : utf8Decode? (utf8Encode [104, 105, 0x20AC]) = some [104, 105, 0x20AC] := by decide

example : utf8Decode? [255] = none := by decide

example :
    (((Builder.new 0).set_insertion_point_to_end 0).insert sampleWorld 5).map
      (fun r => r.2.blocks 0) = some [1, 2, 5] := by decide

/-! ## List splice lemmas for the engine primitives -/

theorem insertAfterElem_spec (r x : Nat) (l1 l2 : List Nat) (h : r ∉ l1) :
    insertAfterElem r x (l1 ++ r :: l2) = l1 ++ r :: x :: l2 := by
  induction l1 with
  | nil => simp [insertAfterElem]
  | cons a t ih =>
    have ha : a ≠ r := by
      intro hr; exact h (by simp [hr])
    have ht : r ∉ t := fun hm => h (List.mem_cons_of_mem _ hm)
    simp [insertAfterElem, ha, ih ht]

theorem insertBeforeElem_spec (r x : Nat) (l1 l2 : List Nat) (h : r ∉ l1) :
    insertBeforeElem r x (l1 ++ r :: l2) = l1 ++ x :: r :: l2 := by
  induction l1 with
  | nil => simp [insertBeforeElem]
  | cons a t ih =>
    have ha : a ≠ r := by
      intro hr; exact h (by simp [hr])
    have ht : r ∉ t := fun hm => h (List.mem_cons_of_mem _ hm)
    simp [insertBeforeElem, ha, ih ht]

/-! ## Frame lemmas for `Builder.insert` -/

theorem insert_frame {b b' : Builder} {w w' : World} {op : Nat}
    (h : Builder.insert b w op = some (b', w')) :
    w'.opLoc = w.opLoc ∧ w'.opName = w.opName ∧ w'.nextOp = w.nextOp ∧
    w'.regions = w.regions ∧ w'.nextBlock = w.nextBlock ∧
    w'.blockRegion = w.blockRegion ∧
    b'.loc = b.loc ∧ b'.cx = b.cx ∧ b'.insert_block = b.insert_block ∧
    b'.insert_block_after = b.insert_block_after := by
  unfold Builder.insert at h
  cases hb : b.insert_block with
  | none => rw [hb] at h; exact absurd h (by simp)
  | some blk =>
    rw [hb] at h
    simp only [Option.some.injEq, Prod.mk.injEq] at h
    obtain ⟨hb', hw'⟩ := h
    subst hb' hw'
    simp [hb]

theorem insert_succeeds {b : Builder} {w : World} {op : Nat} {blk : Nat}
    (hb : b.insert_block = some blk) :
    ∃ b' w', Builder.insert b w op = some (b', w') := by
  unfold Builder.insert
  rw [hb]
  exact ⟨_, _, rfl⟩

theorem insert_blocks_other {b b' : Builder} {w w' : World} {op : Nat}
    {blk : Nat} (hb : b.insert_block = some blk)
    (h : Builder.insert b w op = some (b', w')) :
    ∀ x, x ≠ blk → w'.blocks x = w.blocks x := by
  unfold Builder.insert at h
  rw [hb] at h
  simp only [Option.some.injEq, Prod.mk.injEq] at h
  obtain ⟨_, hw'⟩ := h
  subst hw'
  intro x hx
  simp [hx]

/-- A single `insert` from any valid cursor splices the operation at one
position: the block becomes `l1 ++ op :: l2` for some split `l1 ++ l2` of the
previous contents with `op` not in `l1`, and the cursor becomes `After(op)`. -/
theorem insert_step {b : Builder} {w : World} {blk : Nat} {op : Nat}
    (hb : b.insert_block = some blk)
    (hv : b.insert_point.validFor (w.blocks blk))
    (hnd : (w.blocks blk).Nodup)
    (hop : op ∉ w.blocks blk) :
    ∃ b' w' l1 l2,
      Builder.insert b w op = some (b', w') ∧
      w'.blocks blk = l1 ++ op :: l2 ∧
      l1 ++ l2 = w.blocks blk ∧
      op ∉ l1 ∧
      b'.insert_point = InsertPoint.After ⟨some op⟩ ∧
      b'.insert_block = some blk ∧
      (∀ x, x ≠ blk → w'.blocks x = w.blocks x) := by
  unfold Builder.insert
  rw [hb]
  simp only [Option.some.injEq]
  cases hp : b.insert_point with
  | BlockStart =>
    refine ⟨_, _, [], w.blocks blk, rfl, ?_, by simp, by simp, rfl, rfl, ?_⟩
    · simp [mlirBlockInsertOwnedOperationAfter]
    · intro x hx; simp [hx]
  | BlockEnd =>
    refine ⟨_, _, w.blocks blk, [], rfl, ?_, by simp, hop, rfl, rfl, ?_⟩
    · simp [mlirBlockInsertOwnedOperationBefore]
    · intro x hx; simp [hx]
  | After r =>
    rw [hp] at hv
    obtain ⟨x, hx, hmem⟩ := hv
    obtain ⟨s, t, hst⟩ := List.append_of_mem hmem
    have hns : x ∉ s ∧ x ∉ t := by
      rw [hst] at hnd
      rw [List.nodup_append] at hnd
      exact ⟨fun hc => hnd.2.2 hc (by simp), by
        have := hnd.2.1
        simp [List.nodup_cons] at this
        exact this.1⟩
    refine ⟨_, _, s ++ [x], t, rfl, ?_, by rw [hst]; simp, ?_, rfl, rfl, ?_⟩
    · simp only [mlirBlockInsertOwnedOperationAfter, hx, hst]
      rw [insertAfterElem_spec x op s t hns.1]
      simp
    · rw [hst] at hop
      simp only [List.mem_append, List.mem_singleton] at hop ⊢
      intro hc
      rcases hc with hc | hc
      · exact hop (Or.inl hc)
      · exact hop (Or.inr (by simp [hc]))
    · intro y hy; simp [hy]
  | Before r =>
    rw [hp] at hv
    obtain ⟨x, hx, hmem⟩ := hv
    obtain ⟨s, t, hst⟩ := List.append_of_mem hmem
    have hns : x ∉ s := by
      rw [hst] at hnd
      rw [List.nodup_append] at hnd
      exact fun hc => hnd.2.2 hc (by simp)
    refine ⟨_, _, s, x :: t, rfl, ?_, by rw [hst], ?_, rfl, rfl, ?_⟩
    · simp only [mlirBlockInsertOwnedOperationBefore, hx, hst]
      rw [insertBeforeElem_spec x op s t hns]
      simp
    · rw [hst] at hop
      simp only [List.mem_append] at hop
      exact fun hc => hop (Or.inl hc)
    · intro y hy; simp [hy]

/-- Chaining lemma: from a cursor `After(r)` with the tracked block split as
`l1 ++ r :: l2`, inserting a fresh duplicate-free batch `os` with no
intervening cursor change appends the whole batch directly after `r`. -/
theorem insertAll_after (os : List Nat) :
    ∀ (b : Builder) (w : World) (blk : Nat) (r : Nat) (l1 l2 : List Nat),
    b.insert_block = some blk →
    b.insert_point = InsertPoint.After ⟨some r⟩ →
    w.blocks blk = l1 ++ r :: l2 →
    r ∉ l1 →
    (∀ o ∈ os, o ∉ l1 ++ r :: l2) →
    os.Nodup →
    ∃ b' w',
      insertAll b w os = some (b', w') ∧
      w'.blocks blk = l1 ++ r :: os ++ l2 ∧
      b'.insert_block = some blk ∧
      (∀ x, x ≠ blk → w'.blocks x = w.blocks x) := by
  induction os with
  | nil =>
    intro b w blk r l1 l2 hb _ hw _ _ _
    exact ⟨b, w, rfl, by rw [hw]; simp, hb, fun _ _ => rfl⟩
  | cons op os ih =>
    intro b w blk r l1 l2 hb hp hw hr hfresh hnd
    have hopf : op ∉ l1 ++ r :: l2 := hfresh op (by simp)
    have hins :
        Builder.insert b w op =
          some ({ b with insert_point := InsertPoint.After ⟨some op⟩ },
            { w with
              blocks := fun x =>
                if x = blk then insertAfterElem r op (w.blocks blk) else w.blocks x
              opParent := fun o => if o = op then blk else w.opParent o }) := by
      unfold Builder.insert
      rw [hb, hp]
      simp [mlirBlockInsertOwnedOperationAfter]
    have hsplice : insertAfterElem r op (w.blocks blk) = (l1 ++ [r]) ++ op :: l2 := by
      rw [hw, insertAfterElem_spec r op l1 l2 hr]
      simp
    have hfresh' : ∀ o ∈ os, o ∉ (l1 ++ [r]) ++ op :: l2 := by
      intro o ho
      have h1 : o ∉ l1 ++ r :: l2 := hfresh o (by simp [ho])
      have h2 : o ≠ op := by
        intro hc
        rw [List.nodup_cons] at hnd
        exact hnd.1 (hc ▸ ho)
      simp only [List.mem_append, List.mem_cons, List.not_mem_nil,
        List.mem_singleton] at h1 ⊢
      tauto
    have hopl1 : op ∉ l1 ++ [r] := by
      simp only [List.mem_append, List.mem_cons, List.not_mem_nil,
        List.mem_singleton] at hopf ⊢
      tauto
    obtain ⟨b', w', hall, hblocks, hb', hother⟩ :=
      ih { b with insert_point := InsertPoint.After ⟨some op⟩ }
        { w with
          blocks := fun x =>
            if x = blk then insertAfterElem r op (w.blocks blk) else w.blocks x
          opParent := fun o => if o = op then blk else w.opParent o }
        blk op (l1 ++ [r]) l2 hb rfl (by simp [hsplice]) hopl1 hfresh'
        (List.Nodup.of_cons hnd)
    refine ⟨b', w', ?_, ?_, hb', ?_⟩
    · simp only [insertAll, hins]
      exact hall
    · rw [hblocks]; simp
    · intro x hx
      rw [hother x hx]
      simp [hx]

/-- C1: starting from any of the four cursor variants, a batch of `insert`
calls with no intervening cursor change lands contiguously, in call order. -/
theorem insert_batch_contiguous (b : Builder) (w : World) (blk : Nat)
    (os : List Nat)
    (hb : b.insert_block = some blk)
    (hv : b.insert_point.validFor (w.blocks blk))
    (hnd : (w.blocks blk).Nodup)
    (hfresh : ∀ o ∈ os, o ∉ w.blocks blk)
    (hndos : os.Nodup) :
    ∃ b' w' l1 l2,
      insertAll b w os = some (b', w') ∧
      w'.blocks blk = l1 ++ os ++ l2 ∧
      l1 ++ l2 = w.blocks blk := by
  cases os with
  | nil => exact ⟨b, w, w.blocks blk, [], rfl, by simp, by simp⟩
  | cons op os =>
    obtain ⟨b1, w1, l1, l2, hins, hw1, hsplit, hopl1, hp1, hb1, hoth1⟩ :=
      insert_step hb hv hnd (hfresh op (by simp))
    have hfresh' : ∀ o ∈ os, o ∉ l1 ++ op :: l2 := by
      intro o ho
      have h1 : o ∉ w.blocks blk := hfresh o (by simp [ho])
      rw [← hsplit] at h1
      have h2 : o ≠ op := by
        intro hc
        rw [List.nodup_cons] at hndos
        exact hndos.1 (hc ▸ ho)
      simp only [List.mem_append, List.mem_cons] at h1 ⊢
      rintro (hc | hc | hc)
      · exact h1 (Or.inl hc)
      · exact h2 hc
      · exact h1 (Or.inr hc)
    obtain ⟨b', w', hall, hblocks, hb', hother⟩ :=
      insertAll_after os b1 w1 blk op l1 l2 hb1 hp1 hw1 hopl1 hfresh'
        (List.Nodup.of_cons hndos)
    refine ⟨b', w', l1, l2, ?_, by rw [hblocks], hsplit⟩
    simp only [insertAll, hins]
    exact hall

/-- C7: `insert` realizes each cursor variant by exactly one engine splice —
`BlockStart` is the insert-after primitive on the null sentinel (placing the
operation before the block's first existing operation), `BlockEnd` the
insert-before primitive on the null sentinel (placing it after the last),
and `After(r)`/`Before(r)` the same two primitives directly on `r` (placing
the operation immediately after resp. before `r`). -/
theorem insert_variant_single_splice (b : Builder) (w : World) (blk : Nat)
    (op : Nat) (hb : b.insert_block = some blk) :
    (b.insert_point = InsertPoint.BlockStart →
      ∃ b' w', Builder.insert b w op = some (b', w') ∧
        w'.blocks blk = mlirBlockInsertOwnedOperationAfter (w.blocks blk) ⟨none⟩ op ∧
        w'.blocks blk = op :: w.blocks blk) ∧
    (b.insert_point = InsertPoint.BlockEnd →
      ∃ b' w', Builder.insert b w op = some (b', w') ∧
        w'.blocks blk = mlirBlockInsertOwnedOperationBefore (w.blocks blk) ⟨none⟩ op ∧
        w'.blocks blk = w.blocks blk ++ [op]) ∧
    (∀ r, b.insert_point = InsertPoint.After r →
      ∃ b' w', Builder.insert b w op = some (b', w') ∧
        w'.blocks blk = mlirBlockInsertOwnedOperationAfter (w.blocks blk) r op ∧
        ∀ x l1 l2, r.ptr = some x → w.blocks blk = l1 ++ x :: l2 → x ∉ l1 →
          w'.blocks blk = l1 ++ x :: op :: l2) ∧
    (∀ r, b.insert_point = InsertPoint.Before r →
      ∃ b' w', Builder.insert b w op = some (b', w') ∧
        w'.blocks blk = mlirBlockInsertOwnedOperationBefore (w.blocks blk) r op ∧
        ∀ x l1 l2, r.ptr = some x → w.blocks blk = l1 ++ x :: l2 → x ∉ l1 →
          w'.blocks blk = l1 ++ op :: x :: l2) := by
  refine ⟨?_, ?_, ?_, ?_⟩
  · intro hp
    refine ⟨{ b with insert_point := InsertPoint.After ⟨some op⟩ },
      { w with
        blocks := fun x =>
          if x = blk then mlirBlockInsertOwnedOperationAfter (w.blocks blk) ⟨none⟩ op
          else w.blocks x
        opParent := fun o => if o = op then blk else w.opParent o }, ?_, ?_, ?_⟩
    · unfold Builder.insert
      rw [hb, hp]
    · simp
    · simp [mlirBlockInsertOwnedOperationAfter]
  · intro hp
    refine ⟨{ b with insert_point := InsertPoint.After ⟨some op⟩ },
      { w with
        blocks := fun x =>
          if x = blk then mlirBlockInsertOwnedOperationBefore (w.blocks blk) ⟨none⟩ op
          else w.blocks x
        opParent := fun o => if o = op then blk else w.opParent o }, ?_, ?_, ?_⟩
    · unfold Builder.insert
      rw [hb, hp]
    · simp
    · simp [mlirBlockInsertOwnedOperationBefore]
  · intro r hp
    refine ⟨{ b with insert_point := InsertPoint.After ⟨some op⟩ },
      { w with
        blocks := fun x =>
          if x = blk then mlirBlockInsertOwnedOperationAfter (w.blocks blk) r op
          else w.blocks x
        opParent := fun o => if o = op then blk else w.opParent o }, ?_, ?_, ?_⟩
    · unfold Builder.insert
      rw [hb, hp]
    · simp
    · intro x l1 l2 hx hsplit hnl1
      simp only [mlirBlockInsertOwnedOperationAfter, hx, hsplit, if_pos rfl]
      exact insertAfterElem_spec x op l1 l2 hnl1
  · intro r hp
    refine ⟨{ b with insert_point := InsertPoint.After ⟨some op⟩ },
      { w with
        blocks := fun x =>
          if x = blk then mlirBlockInsertOwnedOperationBefore (w.blocks blk) r op
          else w.blocks x
        opParent := fun o => if o = op then blk else w.opParent o }, ?_, ?_, ?_⟩
    · unfold Builder.insert
      rw [hb, hp]
    · simp
    · intro x l1 l2 hx hsplit hnl1
      simp only [mlirBlockInsertOwnedOperationBefore, hx, hsplit, if_pos rfl]
      exact insertBeforeElem_spec x op l1 l2 hnl1

/-- C2: in a block `[A, C]`, `set_insertion_point_before(C)` followed by
`insert(B)` yields `[A, B, C]` with the cursor auto-advanced to `After(B)`;
a further `insert(B2)` with no cursor change yields `[A, B, B2, C]`. -/
theorem mid_block_insertion (b : Builder) (w : World) (blk : Nat)
    (a c op op2 : Nat)
    (hblocks : w.blocks blk = [a, c]) (hpar : w.opParent c = blk)
    (hac : a ≠ c) (haop : a ≠ op) :
    ∃ b2 w2 b3 w3,
      Builder.insert (b.set_insertion_point_before w c) w op = some (b2, w2) ∧
      w2.blocks blk = [a, op, c] ∧
      b2.insert_point = InsertPoint.After ⟨some op⟩ ∧
      Builder.insert b2 w2 op2 = some (b3, w3) ∧
      w3.blocks blk = [a, op, op2, c] := by
  have hsp1 : insertBeforeElem c op (w.blocks blk) = [a, op, c] := by
    rw [hblocks]; simp [insertBeforeElem, hac]
  have key1 : Builder.insert (b.set_insertion_point_before w c) w op =
      some ({ b with
          insert_block := some blk
          insert_point := InsertPoint.After ⟨some op⟩
          insert_block_after := some blk },
        { w with
          blocks := fun x => if x = blk then [a, op, c] else w.blocks x
          opParent := fun o => if o = op then blk else w.opParent o }) := by
    unfold Builder.insert Builder.set_insertion_point_before
    simp only [hpar, Option.some.injEq, Prod.mk.injEq]
    constructor
    · trivial
    · congr 1
      funext x
      by_cases hx : x = blk
      · simp [hx, mlirBlockInsertOwnedOperationBefore, hsp1]
      · simp [hx]
  have hsp2 : insertAfterElem op op2 [a, op, c] = [a, op, op2, c] := by
    simp [insertAfterElem, haop]
  have key2 : Builder.insert
      { b with
        insert_block := some blk
        insert_point := InsertPoint.After ⟨some op⟩
        insert_block_after := some blk }
      { w with
        blocks := fun x => if x = blk then [a, op, c] else w.blocks x
        opParent := fun o => if o = op then blk else w.opParent o } op2 =
      some ({ b with
          insert_block := some blk
          insert_point := InsertPoint.After ⟨some op2⟩
          insert_block_after := some blk },
        { w with
          blocks := fun x => if x = blk then [a, op, op2, c] else w.blocks x
          opParent := fun o =>
            if o = op2 then blk else if o = op then blk else w.opParent o }) := by
    unfold Builder.insert
    simp only [Option.some.injEq, Prod.mk.injEq]
    constructor
    · trivial
    · congr 1
      funext x
      by_cases hx : x = blk
      · simp [hx, mlirBlockInsertOwnedOperationAfter, hsp2]
      · simp [hx]
  exact ⟨_, _, _, _, key1, by simp, rfl, key2, by simp⟩

/-- C4: with no insertion block configured, `insert` and `add_block` abort
fail-fast (modelled by `none`) without producing any mutated state; `insert`
aborts exactly when the tracked block is unset, and `add_block` exactly when
the tracked block or the sequencing pointer is unset — on `some`, the call
has fully spliced its argument. -/
theorem emission_precondition_fail_fast (b : Builder) (w : World) (op : Nat) :
    (Builder.insert b w op = none ↔ b.insert_block = none) ∧
    (Builder.add_block b w = none ↔
      (b.insert_block = none ∨ b.insert_block_after = none)) := by
  constructor
  · unfold Builder.insert
    cases b.insert_block <;> simp
  · unfold Builder.add_block
    cases b.insert_block <;> cases b.insert_block_after <;> simp

/-- C5: opaque-handle equality for `MlirType` and `MlirBlock` holds iff both
handles are null, or both are non-null and the engine's structural-equality
primitive for that kind accepts the pair; a null handle is never equal to a
non-null one, in either argument order. -/
theorem opaque_handle_equality_contract (typeEqual blockEqual : Nat → Nat → Bool)
    (t u : MlirType) (c d : MlirBlock) :
    (MlirType.eq typeEqual t u = true ↔
      ((t.ptr = none ∧ u.ptr = none) ∨
        (∃ x y, t.ptr = some x ∧ u.ptr = some y ∧ typeEqual x y = true))) ∧
    (MlirBlock.eq blockEqual c d = true ↔
      ((c.ptr = none ∧ d.ptr = none) ∨
        (∃ x y, c.ptr = some x ∧ d.ptr = some y ∧ blockEqual x y = true))) := by
  constructor
  · obtain ⟨tp⟩ := t
    obtain ⟨up⟩ := u
    cases tp <;> cases up <;> simp [MlirType.eq]
  · obtain ⟨cp⟩ := c
    obtain ⟨dp⟩ := d
    cases cp <;> cases dp <;> simp [MlirBlock.eq]

/-- Computation rule for a successful `add_block`. -/
theorem add_block_eq {b : Builder} {w : World} {blk a : Nat}
    (hb : b.insert_block = some blk) (ha : b.insert_block_after = some a) :
    Builder.add_block b w =
      some ({ b with insert_block_after := some w.nextBlock },
        { w with
          nextBlock := w.nextBlock + 1
          blocks := fun x => if x = w.nextBlock then [] else w.blocks x
          blockRegion := fun x =>
            if x = w.nextBlock then w.blockRegion blk else w.blockRegion x
          regions := fun r =>
            if r = w.blockRegion blk then
              insertAfterElem a w.nextBlock (w.regions (w.blockRegion blk))
            else w.regions r },
        w.nextBlock) := by
  unfold Builder.add_block
  rw [hb, ha]

/-- Chaining lemma for `add_block`: with the sequencing pointer at `a` and
the parent region split as `l1 ++ a :: l2`, `k` consecutive `add_block`
calls splice the freshly created blocks directly after `a`, in creation
order, leaving the builder's cursor state and all pre-existing blocks
untouched. -/
theorem addBlocks_chain (k : Nat) :
    ∀ (b : Builder) (w : World) (blk a : Nat) (l1 l2 : List Nat),
    b.insert_block = some blk →
    b.insert_block_after = some a →
    w.regions (w.blockRegion blk) = l1 ++ a :: l2 →
    a ∉ l1 →
    (∀ x ∈ l1 ++ a :: l2, x < w.nextBlock) →
    blk < w.nextBlock →
    ∃ b' w',
      addBlocks b w k = some (b', w', List.range' w.nextBlock k) ∧
      w'.blockRegion blk = w.blockRegion blk ∧
      w'.regions (w.blockRegion blk) = l1 ++ a :: (List.range' w.nextBlock k ++ l2) ∧
      w'.nextBlock = w.nextBlock + k ∧
      b'.insert_block = b.insert_block ∧
      b'.insert_point = b.insert_point ∧
      b'.loc = b.loc ∧
      (∀ x, x < w.nextBlock → w'.blocks x = w.blocks x) ∧
      (∀ x ∈ List.range' w.nextBlock k, w'.blocks x = []) ∧
      (∀ r, r ≠ w.blockRegion blk → w'.regions r = w.regions r) := by
  induction k with
  | zero =>
    intro b w blk a l1 l2 hb ha hreg hal1 hlt hblk
    exact ⟨b, w, rfl, rfl, by simpa using hreg, rfl, rfl, rfl, rfl,
      fun _ _ => rfl, by simp, fun _ _ => rfl⟩
  | succ n ih =>
    intro b w blk a l1 l2 hb ha hreg hal1 hlt hblk
    have hblkne : blk ≠ w.nextBlock := Nat.ne_of_lt hblk
    have hstep := @add_block_eq b w blk a hb ha
    obtain ⟨b', w', hrun, hbr, hregs, hnext, hib, hip, hloc, hfr, hnew, hofr⟩ :=
      ih { b with insert_block_after := some w.nextBlock }
        { w with
          nextBlock := w.nextBlock + 1
          blocks := fun x => if x = w.nextBlock then [] else w.blocks x
          blockRegion := fun x =>
            if x = w.nextBlock then w.blockRegion blk else w.blockRegion x
          regions := fun r =>
            if r = w.blockRegion blk then
              insertAfterElem a w.nextBlock (w.regions (w.blockRegion blk))
            else w.regions r }
        blk w.nextBlock (l1 ++ [a]) l2 hb rfl
        (by
          dsimp only
          rw [if_neg hblkne, if_pos rfl, hreg,
            insertAfterElem_spec a w.nextBlock l1 l2 hal1]
          simp)
        (by
          intro hc
          have hmem : w.nextBlock ∈ l1 ++ a :: l2 := by
            rcases List.mem_append.mp hc with hc | hc
            · exact List.mem_append.mpr (Or.inl hc)
            · simp only [List.mem_singleton] at hc
              simp [hc]
          exact absurd (hlt _ hmem) (Nat.lt_irrefl _))
        (by
          intro x hx
          show x < w.nextBlock + 1
          simp only [List.mem_append, List.mem_cons, List.mem_singleton,
            List.not_mem_nil, or_false] at hx
          rcases hx with (hx | hx) | hx | hx
          · exact Nat.lt_succ_of_lt (hlt x (by simp [hx]))
          · exact Nat.lt_succ_of_lt (hlt x (by simp [hx]))
          · exact hx ▸ Nat.lt_succ_self _
          · exact Nat.lt_succ_of_lt (hlt x (by simp [hx])))
        (by
          show blk < w.nextBlock + 1
          exact Nat.lt_succ_of_lt hblk)
    dsimp only at hrun hbr hregs hnext hib hip hloc hfr hnew hofr
    simp only [ite_self] at hregs hofr
    have hbr2 : w'.blockRegion blk = w.blockRegion blk := by
      rw [hbr]; simp
    refine ⟨b', w', ?_, hbr2, ?_, ?_, hib, hip, hloc, ?_, ?_, ?_⟩
    · simp only [addBlocks, hstep]
      rw [hrun, List.range'_succ]
    · rw [hregs, List.range'_succ]
      simp
    · rw [hnext, Nat.add_assoc, Nat.add_comm 1 n]
    · intro x hx
      have h1 := hfr x (Nat.lt_succ_of_lt hx)
      rw [h1, if_neg (Nat.ne_of_lt hx)]
    · intro x hx
      rw [List.range'_succ] at hx
      rcases List.mem_cons.mp hx with hx | hx
      · have h1 := hfr x (by rw [hx]; exact Nat.lt_succ_self _)
        rw [h1, if_pos hx]
      · exact hnew x hx
    · intro r hr
      have h1 := hofr r hr
      rw [h1, if_neg hr]

/-- C3: with tracked block `blk` (both cursor block and sequencing pointer on
`blk`, as any `set_insertion_point_*` leaves them), `k` consecutive
`add_block` calls create `k` fresh empty blocks appearing in the parent
region directly after `blk` in creation order; the tracked block and the
cursor are unchanged, pre-existing block contents are untouched, and a
subsequent `insert` still succeeds and mutates only `blk`'s operation
list. -/
theorem add_block_sequencing_independence (b : Builder) (w : World)
    (blk : Nat) (k : Nat) (l1 l2 : List Nat)
    (hb : b.insert_block = some blk)
    (ha : b.insert_block_after = some blk)
    (hreg : w.regions (w.blockRegion blk) = l1 ++ blk :: l2)
    (hl1 : blk ∉ l1)
    (hlt : ∀ x ∈ l1 ++ blk :: l2, x < w.nextBlock) :
    ∃ b' w',
      addBlocks b w k = some (b', w', List.range' w.nextBlock k) ∧
      w'.regions (w.blockRegion blk) =
        l1 ++ blk :: (List.range' w.nextBlock k ++ l2) ∧
      b'.insert_block = some blk ∧
      b'.insert_point = b.insert_point ∧
      (∀ x, x < w.nextBlock → w'.blocks x = w.blocks x) ∧
      (∀ x ∈ List.range' w.nextBlock k, w'.blocks x = []) ∧
      (∀ op, ∃ b2 w2, Builder.insert b' w' op = some (b2, w2) ∧
        b2.insert_block = some blk ∧
        ∀ x, x ≠ blk → w2.blocks x = w'.blocks x) := by
  have hblk : blk < w.nextBlock := hlt blk (by simp)
  obtain ⟨b', w', hrun, hbr, hregs, _, hib, hip, _, hfr, hnew, _⟩ :=
    addBlocks_chain k b w blk blk l1 l2 hb ha hreg hl1 hlt hblk
  have hib' : b'.insert_block = some blk := by rw [hib, hb]
  refine ⟨b', w', hrun, hregs, hib', hip, hfr, hnew, ?_⟩
  intro op
  obtain ⟨b2, w2, hins⟩ := @insert_succeeds b' w' op blk hib'
  exact ⟨b2, w2, hins, by
    rw [(insert_frame hins).2.2.2.2.2.2.2.2.1, hib'],
    insert_blocks_other hib' hins⟩

/-- Core lemma for `build_with`: when the client closure leaves a tracked
block behind, `build_with` succeeds; the returned operation is the one
materialized from the closure's final assembly (carrying that assembly's
location), the location map is otherwise untouched, and the builder keeps
the closure's final location and tracked block. -/
theorem build_with_some (name : String) (b : Builder) (w : World)
    (f : Builder → World → OperationState → Builder × World × OperationState)
    (blk : Nat)
    (hblk : (f b w (OperationState.new name b.loc)).1.insert_block = some blk) :
    ∃ b' w' op,
      Builder.build_with name b w f = some (b', w', op) ∧
      op = (f b w (OperationState.new name b.loc)).2.1.nextOp ∧
      w'.nextOp = op + 1 ∧
      w'.opLoc op = (f b w (OperationState.new name b.loc)).2.2.loc ∧
      (∀ o, o ≠ op →
        w'.opLoc o = (f b w (OperationState.new name b.loc)).2.1.opLoc o) ∧
      b'.loc = (f b w (OperationState.new name b.loc)).1.loc ∧
      b'.insert_block = some blk := by
  obtain ⟨b2, w3, hins⟩ :=
    @insert_succeeds (f b w (OperationState.new name b.loc)).1
      ((f b w (OperationState.new name b.loc)).2.2.build
        (f b w (OperationState.new name b.loc)).2.1).2
      ((f b w (OperationState.new name b.loc)).2.2.build
        (f b w (OperationState.new name b.loc)).2.1).1
      blk hblk
  have hfr := insert_frame hins
  refine ⟨b2, w3,
    ((f b w (OperationState.new name b.loc)).2.2.build
      (f b w (OperationState.new name b.loc)).2.1).1,
    ?_, rfl, ?_, ?_, ?_, ?_, ?_⟩
  · unfold Builder.build_with
    dsimp only
    rw [hins]
  · rw [hfr.2.2.1]
    simp [OperationState.build]
  · rw [hfr.1]
    simp [OperationState.build]
  · intro o ho
    rw [hfr.1]
    simp only [OperationState.build]
    exact if_neg ho
  · exact hfr.2.2.2.2.2.2.1
  · rw [hfr.2.2.2.2.2.2.2.2.1, hblk]

/-- C10: `build_with` seeds the assembly with the builder's location before
running the closure, so even a closure that changes the builder's location
(e.g. via `set_loc`) yields an operation stamped with the location current
at entry; the closure's final location remains on the builder, affecting
only operations built afterwards. -/
theorem build_with_captures_entry_location (name : String) (b : Builder)
    (w : World)
    (f : Builder → World → OperationState → Builder × World × OperationState)
    (blk : Nat)
    (hf : ∀ b1 w1 s, (f b1 w1 s).2.2.loc = s.loc)
    (hblk : (f b w (OperationState.new name b.loc)).1.insert_block = some blk) :
    ∃ b' w' op,
      Builder.build_with name b w f = some (b', w', op) ∧
      w'.opLoc op = b.loc ∧
      b'.loc = (f b w (OperationState.new name b.loc)).1.loc := by
  obtain ⟨b', w', op, heq, _, _, hloc, _, hbl, _⟩ :=
    build_with_some name b w f blk hblk
  refine ⟨b', w', op, heq, ?_, hbl⟩
  rw [hloc, hf]
  rfl

/-- C8: an operation built via `build_with` after `set_loc L` carries
location `L`; a second `set_loc L2` followed by another `build_with` stamps
the new operation with `L2` and leaves the first operation's recorded
location at `L` (no retroactive change). -/
theorem location_stamping (name1 name2 : String) (b : Builder) (w : World)
    (L L2 : Nat) (blk : Nat)
    (f g : Builder → World → OperationState → Builder × World × OperationState)
    (hf_loc : ∀ b1 w1 s, (f b1 w1 s).2.2.loc = s.loc)
    (hg_loc : ∀ b1 w1 s, (g b1 w1 s).2.2.loc = s.loc)
    (hf_blk : ∀ b1 w1 s, (f b1 w1 s).1.insert_block = b1.insert_block)
    (hg_blk : ∀ b1 w1 s, (g b1 w1 s).1.insert_block = b1.insert_block)
    (hg_next : ∀ b1 w1 s, w1.nextOp ≤ (g b1 w1 s).2.1.nextOp)
    (hg_opLoc : ∀ b1 w1 s o, o < w1.nextOp → (g b1 w1 s).2.1.opLoc o = w1.opLoc o)
    (hb : b.insert_block = some blk) :
    ∃ b2 w2 op1 b3 w3 op2,
      Builder.build_with name1 (b.set_loc L) w f = some (b2, w2, op1) ∧
      w2.opLoc op1 = L ∧
      Builder.build_with name2 (b2.set_loc L2) w2 g = some (b3, w3, op2) ∧
      w3.opLoc op2 = L2 ∧
      op2 ≠ op1 ∧
      w3.opLoc op1 = L := by
  obtain ⟨b2, w2, op1, heq1, hop1, hn2, hloc1, _, _, hib2⟩ :=
    build_with_some name1 (b.set_loc L) w f blk
      (by rw [hf_blk]; exact hb)
  obtain ⟨b3, w3, op2, heq2, hop2, _, hloc2, hother2, _, _⟩ :=
    build_with_some name2 (b2.set_loc L2) w2 g blk
      (by rw [hg_blk]; exact hib2)
  have hL1 : w2.opLoc op1 = L := by
    rw [hloc1, hf_loc]
    rfl
  have hne : op2 ≠ op1 := by
    have h1 := hg_next (b2.set_loc L2) w2
      (OperationState.new name2 (b2.set_loc L2).loc)
    rw [hn2] at h1
    omega
  refine ⟨b2, w2, op1, b3, w3, op2, heq1, hL1, heq2, ?_, hne, ?_⟩
  · rw [hloc2, hg_loc]
    rfl
  · rw [hother2 op1 (fun hc => hne (hc ▸ rfl)), hg_opLoc]
    · exact hL1
    · omega

/-- Every public call preserves the builder-state invariant: the tracked
block and the block-sequencing pointer are set together. -/
theorem execCalls_preserves_inv :
    ∀ (b : Builder) (w : World) (cs : List BuilderCall) (b' : Builder)
      (w' : World), BuilderInv b → execCalls b w cs = some (b', w') →
      BuilderInv b' :=
  execCalls.induct
    (fun b w c => ∀ b' w', BuilderInv b → execCall b w c = some (b', w') →
      BuilderInv b')
    (fun b w cs => ∀ b' w', BuilderInv b → execCalls b w cs = some (b', w') →
      BuilderInv b')
    (by
      intro b w l b' w' hInv h
      simp only [execCall, Option.some.injEq, Prod.mk.injEq] at h
      obtain ⟨h1, _⟩ := h
      subst h1
      simpa [BuilderInv, Builder.set_loc] using hInv)
    (by
      intro b w blk b' w' _ h
      simp only [execCall, Option.some.injEq, Prod.mk.injEq] at h
      obtain ⟨h1, _⟩ := h
      subst h1
      simp [BuilderInv, Builder.set_insertion_point_to_start])
    (by
      intro b w blk b' w' _ h
      simp only [execCall, Option.some.injEq, Prod.mk.injEq] at h
      obtain ⟨h1, _⟩ := h
      subst h1
      simp [BuilderInv, Builder.set_insertion_point_to_end])
    (by
      intro b w op b' w' _ h
      simp only [execCall, Option.some.injEq, Prod.mk.injEq] at h
      obtain ⟨h1, _⟩ := h
      subst h1
      simp [BuilderInv, Builder.set_insertion_point_before])
    (by
      intro b w op b' w' _ h
      simp only [execCall, Option.some.injEq, Prod.mk.injEq] at h
      obtain ⟨h1, _⟩ := h
      subst h1
      simp [BuilderInv, Builder.set_insertion_point_after])
    (by
      intro b w op b' w' hInv h
      simp only [execCall] at h
      have hfr := insert_frame h
      unfold BuilderInv at hInv ⊢
      rw [hfr.2.2.2.2.2.2.2.2.1, hfr.2.2.2.2.2.2.2.2.2]
      exact hInv)
    (by
      intro b w hnone b' w' _ h
      simp only [execCall, hnone] at h
      exact Option.noConfusion h)
    (by
      intro b w b1 w1 nb hsome b' w' hInv h
      simp only [execCall, hsome, Option.some.injEq, Prod.mk.injEq] at h
      obtain ⟨h1, _⟩ := h
      subst h1
      unfold Builder.add_block at hsome
      cases hib : b.insert_block with
      | none => rw [hib] at hsome; exact absurd hsome (by simp)
      | some blk =>
        cases hiba : b.insert_block_after with
        | none => rw [hib, hiba] at hsome; exact absurd hsome (by simp)
        | some a =>
          rw [hib, hiba] at hsome
          simp only [Option.some.injEq, Prod.mk.injEq] at hsome
          obtain ⟨hb1, _⟩ := hsome
          subst hb1
          simp [BuilderInv, hib])
    (by
      intro b w name inner hnone _ b' w' _ h
      simp only [execCall, hnone] at h
      exact Option.noConfusion h)
    (by
      intro b w name inner b2 w3 hsome ih b' w' hInv h
      simp only [execCall, hsome] at h
      have hinv2 := ih b2 w3 hInv hsome
      have hfr := insert_frame h
      unfold BuilderInv at hinv2 ⊢
      rw [hfr.2.2.2.2.2.2.2.2.1, hfr.2.2.2.2.2.2.2.2.2]
      exact hinv2)
    (by
      intro b w b' w' hInv h
      simp only [execCalls, Option.some.injEq, Prod.mk.injEq] at h
      obtain ⟨h1, _⟩ := h
      subst h1
      exact hInv)
    (by
      intro b w c cs hnone _ b' w' _ h
      simp only [execCalls, hnone] at h
      exact Option.noConfusion h)
    (by
      intro b w c cs b2 w3 hsome ih1 ih2 b' w' hInv h
      simp only [execCalls, hsome] at h
      exact ih2 b' w' (ih1 b2 w3 hInv hsome) h)

/-- C9: starting from `Builder::new`, after any sequence of public builder
calls the tracked insertion block is set iff the block-sequencing pointer is
set; consequently, whenever `add_block`'s tracked-block precondition holds
its sequencing-pointer precondition holds too, so the call cannot abort on
the second `expect`. -/
theorem tracked_block_sequencing_pointer_in_sync (cs : List BuilderCall)
    (cx : Nat) (w w' : World) (b' : Builder)
    (h : execCalls (Builder.new cx) w cs = some (b', w')) :
    (b'.insert_block.isSome ↔ b'.insert_block_after.isSome) ∧
    (∀ w2, b'.insert_block.isSome → (Builder.add_block b' w2).isSome) := by
  have hInv0 : BuilderInv (Builder.new cx) := by
    simp [BuilderInv, Builder.new]
  have hInv := execCalls_preserves_inv (Builder.new cx) w cs b' w' hInv0 h
  unfold BuilderInv at hInv
  constructor
  · constructor
    · intro h2; rw [← hInv]; exact h2
    · intro h2; rw [hInv]; exact h2
  · intro w2 hsome
    unfold Builder.add_block
    cases hib : b'.insert_block with
    | none => rw [hib] at hsome; simp at hsome
    | some blk =>
      have hsome2 : b'.insert_block_after.isSome := by
        rw [← hInv, hib]
        rfl
      obtain ⟨a, ha⟩ := Option.isSome_iff_exists.mp hsome2
      rw [ha]
      simp

/-! ## UTF-8 round-trip lemmas -/

theorem utf8EncodeChar_length_pos (c : Nat) : 0 < (utf8EncodeChar c).length := by
  unfold utf8EncodeChar
  split_ifs <;> simp

theorem utf8DecodeOne_encodeChar (c : Nat) (h : ValidScalar c) (bs : List Nat) :
    utf8DecodeOne (utf8EncodeChar c ++ bs) = some (c, bs) := by
  obtain ⟨h1, h2⟩ := h
  by_cases hc1 : c < 0x80
  · simp only [utf8EncodeChar, if_pos hc1, List.cons_append, List.nil_append]
    simp only [utf8DecodeOne, if_pos hc1]
  · by_cases hc2 : c < 0x800
    · simp only [utf8EncodeChar, if_neg hc1, if_pos hc2, List.cons_append,
        List.nil_append]
      simp only [utf8DecodeOne]
      rw [if_neg (by omega), if_neg (by omega), if_pos (by omega)]
      have hcont : isCont (0x80 + c % 64) = true := by
        simp only [isCont, Bool.and_eq_true, decide_eq_true_eq]
        omega
      rw [if_pos hcont]
      simp only [Option.some.injEq, Prod.mk.injEq]
      exact ⟨by omega, trivial⟩
    · by_cases hc3 : c < 0x10000
      · simp only [utf8EncodeChar, if_neg hc1, if_neg hc2, if_pos hc3,
          List.cons_append, List.nil_append]
        simp only [utf8DecodeOne]
        rw [if_neg (by omega), if_neg (by omega), if_neg (by omega),
          if_pos (by omega)]
        have hcont : (isCont (0x80 + c / 64 % 64) && isCont (0x80 + c % 64)) =
            true := by
          simp only [isCont, Bool.and_eq_true, decide_eq_true_eq]
          omega
        rw [if_pos hcont]
        have hval : (0xE0 + c / 4096 - 0xE0) * 4096 +
            (0x80 + c / 64 % 64 - 0x80) * 64 + (0x80 + c % 64 - 0x80) = c := by
          omega
        simp only [hval]
        rw [if_neg (by omega), if_neg (by omega)]
      · simp only [utf8EncodeChar, if_neg hc1, if_neg hc2, if_neg hc3,
          List.cons_append, List.nil_append]
        simp only [utf8DecodeOne]
        rw [if_neg (by omega), if_neg (by omega), if_neg (by omega),
          if_neg (by omega), if_pos (by omega)]
        have hcont : (isCont (0x80 + c / 4096 % 64) &&
            isCont (0x80 + c / 64 % 64) && isCont (0x80 + c % 64)) = true := by
          simp only [isCont, Bool.and_eq_true, decide_eq_true_eq]
          omega
        rw [if_pos hcont]
        have hval : (0xF0 + c / 262144 - 0xF0) * 262144 +
            (0x80 + c / 4096 % 64 - 0x80) * 4096 +
            (0x80 + c / 64 % 64 - 0x80) * 64 + (0x80 + c % 64 - 0x80) = c := by
          omega
        simp only [hval]
        rw [if_neg (by omega), if_neg (by omega)]

theorem length_le_utf8Encode (s : List Nat) :
    s.length ≤ (utf8Encode s).length := by
  induction s with
  | nil => simp [utf8Encode]
  | cons c t ih =>
    have h1 := utf8EncodeChar_length_pos c
    simp only [utf8Encode, List.map_cons, List.flatten_cons, List.length_append,
      List.length_cons]
    simp only [utf8Encode] at ih
    omega

theorem utf8DecodeAux_encode (s : List Nat) :
    ∀ fuel, s.length ≤ fuel → (∀ c ∈ s, ValidScalar c) →
    utf8DecodeAux fuel (utf8Encode s) = some s := by
  induction s with
  | nil =>
    intro fuel _ _
    simp [utf8Encode, utf8DecodeAux]
  | cons c t ih =>
    intro fuel hlen hv
    obtain ⟨f, rfl⟩ : ∃ f, fuel = f + 1 :=
      ⟨fuel - 1, by simp at hlen; omega⟩
    have henc : utf8Encode (c :: t) = utf8EncodeChar c ++ utf8Encode t := by
      simp [utf8Encode]
    obtain ⟨b0, rest, hbr⟩ :
        ∃ b0 rest, utf8EncodeChar c ++ utf8Encode t = b0 :: rest := by
      cases hch : utf8EncodeChar c with
      | nil =>
        have := utf8EncodeChar_length_pos c
        rw [hch] at this
        simp at this
      | cons x xs => exact ⟨x, xs ++ utf8Encode t, by simp⟩
    rw [henc, hbr]
    simp only [utf8DecodeAux]
    rw [← hbr, utf8DecodeOne_encodeChar c (hv c (by simp)) (utf8Encode t)]
    dsimp only
    rw [ih f (by simp at hlen; omega) (fun x hx => hv x (by simp [hx]))]

theorem utf8_roundtrip (s : List Nat) (h : ∀ c ∈ s, ValidScalar c) :
    utf8Decode? (utf8Encode s) = some s :=
  utf8DecodeAux_encode s (utf8Encode s).length (length_le_utf8Encode s) h

/-- C6 counterexample: decoding an invalid byte range does not surface a
recoverable error — it aborts with the `expect("utf8 string")` panic (the
call never returns a value the caller could handle). -/
theorem utf8_decode_failure_is_abort_cex :
    mlirStringRefToStr [255] (fun t => t) =
      RustOutcome.panicked "utf8 string" := by
  rfl

/-- C6 (amended): decoding the byte view of a valid text succeeds and yields
the original text back, while decoding any non-UTF-8 byte range aborts with
the `expect("utf8 string")` panic rather than returning a recoverable
error. -/
theorem utf8_marshaling_contract (s bs : List Nat)
    (f g : List Nat → List Nat)
    (hs : ∀ c ∈ s, ValidScalar c) (hbad : utf8Decode? bs = none) :
    mlirStringRefToStr (mlirStringRefCreateFromStr s) f = RustOutcome.ok (f s) ∧
    mlirStringRefToStr bs g = RustOutcome.panicked "utf8 string" := by
  constructor
  · unfold mlirStringRefToStr mlirStringRefCreateFromStr
    rw [utf8_roundtrip s hs]
  · unfold mlirStringRefToStr
    rw [hbad]

/-! ## Concrete witnesses -/

theorem utf8_marshaling_contract_witness :
    mlirStringRefToStr (mlirStringRefCreateFromStr [104, 8364]) (fun t => t) =
      RustOutcome.ok [104, 8364] ∧
    mlirStringRefToStr [255] (fun t => t) =
      RustOutcome.panicked "utf8 string" :=
  utf8_marshaling_contract [104, 8364] [255] (fun t => t) (fun t => t)
    (by decide) (by decide)

theorem insert_batch_contiguous_witness :
    ∃ b' w' l1 l2,
      insertAll ((Builder.new 0).set_insertion_point_to_end 0) sampleWorld
        [20, 21, 22] = some (b', w') ∧
      w'.blocks 0 = l1 ++ [20, 21, 22] ++ l2 ∧
      l1 ++ l2 = sampleWorld.blocks 0 :=
  insert_batch_contiguous ((Builder.new 0).set_insertion_point_to_end 0)
    sampleWorld 0 [20, 21, 22] rfl trivial (by decide) (by decide) (by decide)

theorem mid_block_insertion_witness :
    ∃ b2 w2 b3 w3,
      Builder.insert ((Builder.new 0).set_insertion_point_before sampleWorld 2)
        sampleWorld 5 = some (b2, w2) ∧
      w2.blocks 0 = [1, 5, 2] ∧
      b2.insert_point = InsertPoint.After ⟨some 5⟩ ∧
      Builder.insert b2 w2 6 = some (b3, w3) ∧
      w3.blocks 0 = [1, 5, 6, 2] :=
  mid_block_insertion (Builder.new 0) sampleWorld 0 1 2 5 6 (by decide) rfl
    (by decide) (by decide)

theorem add_block_sequencing_independence_witness :
    ∃ b' w',
      addBlocks ((Builder.new 0).set_insertion_point_to_end 0) sampleWorld 3 =
        some (b', w', List.range' sampleWorld.nextBlock 3) ∧
      w'.regions (sampleWorld.blockRegion 0) =
        [] ++ 0 :: (List.range' sampleWorld.nextBlock 3 ++ []) ∧
      b'.insert_block = some 0 ∧
      b'.insert_point =
        ((Builder.new 0).set_insertion_point_to_end 0).insert_point ∧
      (∀ x, x < sampleWorld.nextBlock → w'.blocks x = sampleWorld.blocks x) ∧
      (∀ x ∈ List.range' sampleWorld.nextBlock 3, w'.blocks x = []) ∧
      (∀ op, ∃ b2 w2, Builder.insert b' w' op = some (b2, w2) ∧
        b2.insert_block = some 0 ∧
        ∀ x, x ≠ 0 → w2.blocks x = w'.blocks x) :=
  add_block_sequencing_independence
    ((Builder.new 0).set_insertion_point_to_end 0) sampleWorld 0 3 [] []
    rfl rfl rfl (by decide) (by decide)

theorem emission_precondition_fail_fast_witness :
    Builder.insert (Builder.new 0) sampleWorld 5 = none ∧
    Builder.add_block (Builder.new 0) sampleWorld = none :=
  ⟨(emission_precondition_fail_fast (Builder.new 0) sampleWorld 5).1.mpr rfl,
    (emission_precondition_fail_fast (Builder.new 0) sampleWorld 5).2.mpr
      (Or.inl rfl)⟩

theorem insert_variant_single_splice_witness :
    (((Builder.new 0).set_insertion_point_to_end 0).insert_point =
        InsertPoint.BlockStart →
      ∃ b' w',
        Builder.insert ((Builder.new 0).set_insertion_point_to_end 0)
          sampleWorld 5 = some (b', w') ∧
        w'.blocks 0 =
          mlirBlockInsertOwnedOperationAfter (sampleWorld.blocks 0) ⟨none⟩ 5 ∧
        w'.blocks 0 = 5 :: sampleWorld.blocks 0) ∧
    (((Builder.new 0).set_insertion_point_to_end 0).insert_point =
        InsertPoint.BlockEnd →
      ∃ b' w',
        Builder.insert ((Builder.new 0).set_insertion_point_to_end 0)
          sampleWorld 5 = some (b', w') ∧
        w'.blocks 0 =
          mlirBlockInsertOwnedOperationBefore (sampleWorld.blocks 0) ⟨none⟩ 5 ∧
        w'.blocks 0 = sampleWorld.blocks 0 ++ [5]) ∧
    (∀ r, ((Builder.new 0).set_insertion_point_to_end 0).insert_point =
        InsertPoint.After r →
      ∃ b' w',
        Builder.insert ((Builder.new 0).set_insertion_point_to_end 0)
          sampleWorld 5 = some (b', w') ∧
        w'.blocks 0 =
          mlirBlockInsertOwnedOperationAfter (sampleWorld.blocks 0) r 5 ∧
        ∀ x l1 l2, r.ptr = some x → sampleWorld.blocks 0 = l1 ++ x :: l2 →
          x ∉ l1 → w'.blocks 0 = l1 ++ x :: 5 :: l2) ∧
    (∀ r, ((Builder.new 0).set_insertion_point_to_end 0).insert_point =
        InsertPoint.Before r →
      ∃ b' w',
        Builder.insert ((Builder.new 0).set_insertion_point_to_end 0)
          sampleWorld 5 = some (b', w') ∧
        w'.blocks 0 =
          mlirBlockInsertOwnedOperationBefore (sampleWorld.blocks 0) r 5 ∧
        ∀ x l1 l2, r.ptr = some x → sampleWorld.blocks 0 = l1 ++ x :: l2 →
          x ∉ l1 → w'.blocks 0 = l1 ++ 5 :: x :: l2) :=
  insert_variant_single_splice ((Builder.new 0).set_insertion_point_to_end 0)
    sampleWorld 0 5 rfl

theorem location_stamping_witness :
    ∃ b2 w2 op1 b3 w3 op2,
      Builder.build_with "n1"
        ((((Builder.new 0).set_insertion_point_to_end 0)).set_loc 3)
        sampleWorld (fun b1 w1 s => (b1, w1, s)) = some (b2, w2, op1) ∧
      w2.opLoc op1 = 3 ∧
      Builder.build_with "n2" (b2.set_loc 4) w2
        (fun b1 w1 s => (b1, w1, s)) = some (b3, w3, op2) ∧
      w3.opLoc op2 = 4 ∧
      op2 ≠ op1 ∧
      w3.opLoc op1 = 3 :=
  location_stamping "n1" "n2" ((Builder.new 0).set_insertion_point_to_end 0)
    sampleWorld 3 4 0 (fun b1 w1 s => (b1, w1, s)) (fun b1 w1 s => (b1, w1, s))
    (fun _ _ _ => rfl) (fun _ _ _ => rfl) (fun _ _ _ => rfl) (fun _ _ _ => rfl)
    (fun _ _ _ => Nat.le_refl _) (fun _ _ _ _ _ => rfl) rfl

theorem tracked_block_sequencing_pointer_in_sync_witness :
    ((((Builder.new 0).set_loc 5).set_insertion_point_to_end
        0).insert_block.isSome ↔
      (((Builder.new 0).set_loc 5).set_insertion_point_to_end
        0).insert_block_after.isSome) ∧
    (∀ w2, (((Builder.new 0).set_loc 5).set_insertion_point_to_end
        0).insert_block.isSome →
      (Builder.add_block
        (((Builder.new 0).set_loc 5).set_insertion_point_to_end 0) w2).isSome) :=
  tracked_block_sequencing_pointer_in_sync
    [BuilderCall.setLoc 5, BuilderCall.setEnd 0] 0 sampleWorld sampleWorld
    (((Builder.new 0).set_loc 5).set_insertion_point_to_end 0)
    (by simp [execCalls, execCall])

theorem build_with_captures_entry_location_witness :
    ∃ b' w' op,
      Builder.build_with "n1" ((Builder.new 0).set_insertion_point_to_end 0)
        sampleWorld (fun b1 w1 s => (b1.set_loc 7, w1, s)) =
        some (b', w', op) ∧
      w'.opLoc op = 0 ∧
      b'.loc = 7 :=
  build_with_captures_entry_location "n1"
    ((Builder.new 0).set_insertion_point_to_end 0) sampleWorld
    (fun b1 w1 s => (b1.set_loc 7, w1, s)) 0 (fun _ _ _ => rfl) rfl
